import Mathlib

/-!
Verification of the log-analyzer parsing-and-aggregation pipeline
(`log_analyzer.py`): line extraction, corruption gate, stream
aggregation, statistics builder and top-N selection.

Modelling conventions:
* Python floats are modelled as rationals (`ℚ`); `round(x, 3)` is
  modelled as round-half-to-even at three decimals, which reproduces the
  repository's own expected test values (`time_avg = 0.356` from
  `0.3565`, `time_med = 0.294` from `0.2945`).
* A log stream is the list of decoded text lines (the file/gzip layer is
  an external collaborator).
* The regex search of `parse_log_records` is embedded as an explicit
  leftmost-then-greedy backtracking matcher over `List Char`; the
  character classes `\s` and `\d` are modelled by their ASCII meaning.
* Fallible Python operations (`/` on a zero denominator, `[-1]` on an
  empty list, `statistics.median` of an empty list) return `Except`.
-/

namespace LogAnalyzer

/-- The character class `\s` of the line pattern (ASCII whitespace). -/
def isWs (c : Char) : Bool :=
  c = ' ' || c = '\t' || c = '\n' || c = '\r' || c = Char.ofNat 11 || c = Char.ofNat 12

/-- The character class `\d` of the line pattern (ASCII digits). -/
def isDigitC (c : Char) : Bool :=
  '0' ≤ c && c ≤ '9'

/-- The character class `.` of the line pattern: any character except a
newline. -/
def isDotC (c : Char) : Bool :=
  c ≠ '\n'

/-- Numeric value of a digit string, as `float` conversion reads the
integral or fractional digits. -/
def natVal (l : List Char) : ℕ :=
  l.foldl (fun a c => 10 * a + (c.toNat - 48)) 0

/-- Does `t` match `\d+\.\d+$` exactly, i.e. is `t` the `request_time`
group followed by the end of the line?  Because the pattern is anchored
at the end, the decomposition into `\d+ . \d+` is forced. -/
def timeOk (t : List Char) : Bool :=
  (!(t.takeWhile isDigitC).isEmpty) &&
    (match t.dropWhile isDigitC with
     | c :: t2 => (c == '.') && (!t2.isEmpty) && t2.all isDigitC
     | [] => false)

/-- Value of the matched `request_time` group `\d+\.\d+` under Python's
`float`, as a rational. -/
def timeVal (t : List Char) : ℚ :=
  let t1 := t.takeWhile isDigitC
  let t2 := (t.dropWhile isDigitC).drop 1
  (natVal t1 : ℚ) + (natVal t2 : ℚ) / (10 : ℚ) ^ t2.length

/-- Greedy backtracking over the length of one quantified group: try
the longest quantity first, as a backtracking regex engine does. -/
def firstDesc {α : Type} (f : ℕ → Option α) : ℕ → Option α
  | 0 => none
  | k + 1 =>
    match f (k + 1) with
    | some a => some a
    | none => firstDesc f k

/-- One candidate split for the suffix `.+\s(?P<request_time>\d+\.\d+)$`
of the pattern: the first `k` characters go to the `.+`, then one
whitespace character, then the time group runs to the end of the line.
Returns the characters of the `request_time` group. -/
def gHit (r : List Char) (k : ℕ) : Option (List Char) :=
  if (r.take k).all isDotC then
    match r.drop k with
    | h :: t => if isWs h && timeOk t then some t else none
    | [] => none
  else none

/-- Greedy matching of `.+\s(?P<request_time>\d+\.\d+)$` against `r`. -/
def gStage (r : List Char) : Option (List Char) :=
  firstDesc (gHit r) r.length

/-- Matching of `HTTP\/\d\.\d"\s` followed by the `gStage` suffix: the
literal marker, two version digits, the closing quote, then a single
whitespace character. -/
def efgStage : List Char → Option (List Char)
  | 'H' :: 'T' :: 'T' :: 'P' :: '/' :: d1 :: '.' :: d2 :: '"' :: f :: r =>
    if isDigitC d1 && isDigitC d2 && isWs f then gStage r else none
  | _ => none

/-- Matching of the `\s+` run that separates the url group from the
`HTTP/` marker.  Since the marker starts with a non-whitespace
character, the greedy run is forced to consume the whole whitespace
block. -/
def dStage (r : List Char) : Option (List Char) :=
  if (r.takeWhile isWs).isEmpty then none else efgStage (r.dropWhile isWs)

/-- One candidate split for the url group: its first `c` characters,
each of which must be in the url character class `pc`, followed by the
rest of the pattern.  The code's class for `(?P<url>.+)` is `isDotC`;
the class is a parameter so that the spec's claimed variant of the
contract can be stated against the same machinery. -/
def cHit (pc : Char → Bool) (r : List Char) (c : ℕ) :
    Option (List Char × List Char) :=
  if (r.take c).all pc then
    (dStage (r.drop c)).map (fun t => (r.take c, t))
  else none

/-- Greedy matching of the url group (longest first). -/
def cStage (pc : Char → Bool) (r : List Char) : Option (List Char × List Char) :=
  firstDesc (cHit pc r) r.length

/-- One candidate split for the `\s+` run after the HTTP method. -/
def bHit (pc : Char → Bool) (r : List Char) (b : ℕ) :
    Option (List Char × List Char) :=
  if (r.take b).all isWs then cStage pc (r.drop b) else none

/-- Greedy matching of the `\s+` run after the HTTP method: longest
first (the url group can itself absorb whitespace, so backtracking here
is real). -/
def bStage (pc : Char → Bool) (r : List Char) : Option (List Char × List Char) :=
  firstDesc (bHit pc r) r.length

/-- Strip a literal from the front of a character list. -/
def dropLit : List Char → List Char → Option (List Char)
  | [], s => some s
  | _ :: _, [] => none
  | c :: p, d :: s => if c = d then dropLit p s else none

/-- The five HTTP method alternatives of the pattern, in source order. -/
def methodLits : List (List Char) :=
  [['P', 'O', 'S', 'T'], ['G', 'E', 'T'], ['H', 'E', 'A', 'D'],
   ['P', 'U', 'T'], ['O', 'P', 'T', 'I', 'O', 'N', 'S']]

/-- Match the method alternation `(?:POST|GET|HEAD|PUT|OPTIONS)` at the
front of `s`, returning the remainder. -/
def methodRest (s : List Char) : Option (List Char) :=
  match dropLit ['P', 'O', 'S', 'T'] s with
  | some r => some r
  | none =>
    match dropLit ['G', 'E', 'T'] s with
    | some r => some r
    | none =>
      match dropLit ['H', 'E', 'A', 'D'] s with
      | some r => some r
      | none =>
        match dropLit ['P', 'U', 'T'] s with
        | some r => some r
        | none => dropLit ['O', 'P', 'T', 'I', 'O', 'N', 'S'] s

/-- Try a full pattern match starting exactly at the front of `s`. -/
def matchHere (pc : Char → Bool) (s : List Char) :
    Option (List Char × List Char) :=
  match methodRest s with
  | some r0 => bStage pc r0
  | none => none

/-- `re.search` position scan: try each start position from the left;
the leftmost position admitting a match wins. -/
def searchFrom (pc : Char → Bool) : List Char → Option (List Char × List Char)
  | [] => none
  | c :: rest =>
    match matchHere pc (c :: rest) with
    | some p => some p
    | none => searchFrom pc rest

/-- Embedding of one iteration of the extraction loop of
`parse_log_records`: `re.search(pattern, record)` followed by reading
the `url` and `request_time` groups and `float` conversion.  The url
character class of the code's pattern is `.`, i.e. `isDotC`. -/
def lineMatch (s : String) : Option (String × ℚ) :=
  match searchFrom isDotC s.data with
  | some (u, t) => some (String.mk u, timeVal t)
  | none => none

/-- Modelled from the spec: the Line Extractor contract's path class,
"any non-whitespace-containing run". -/
def specUrlChar (c : Char) : Bool :=
  !isWs c

/-- Declarative shape of the anchored time suffix: the line's remainder
is `\d+\.\d+` exactly. -/
def TimeShape (t : List Char) : Prop :=
  ∃ t1 t2, t = t1 ++ '.' :: t2 ∧ t1 ≠ [] ∧ t1.all isDigitC = true ∧
    t2 ≠ [] ∧ t2.all isDigitC = true

/-- Declarative shape of `.+\s\d+\.\d+$`. -/
def TailShape (r : List Char) : Prop :=
  ∃ g h t, r = g ++ h :: t ∧ g ≠ [] ∧ g.all isDotC = true ∧
    isWs h = true ∧ TimeShape t

/-- Declarative shape of `HTTP\/\d\.\d"\s` followed by the tail. -/
def MarkShape (r : List Char) : Prop :=
  ∃ d1 d2 f rest,
    r = 'H' :: 'T' :: 'T' :: 'P' :: '/' :: d1 :: '.' :: d2 :: '"' :: f :: rest ∧
    isDigitC d1 = true ∧ isDigitC d2 = true ∧ isWs f = true ∧ TailShape rest

/-- Declarative shape of the `\s+` run before the marker and onward. -/
def DShape (r : List Char) : Prop :=
  ∃ w rest, r = w ++ rest ∧ w ≠ [] ∧ w.all isWs = true ∧ MarkShape rest

/-- Declarative shape of the url group and onward, for a url character
class `pc`. -/
def CShape (pc : Char → Bool) (r : List Char) : Prop :=
  ∃ u rest, r = u ++ rest ∧ u ≠ [] ∧ u.all pc = true ∧ DShape rest

/-- Declarative shape of the `\s+` run after the method and onward. -/
def BShape (pc : Char → Bool) (r : List Char) : Prop :=
  ∃ w rest, r = w ++ rest ∧ w ≠ [] ∧ w.all isWs = true ∧ CShape pc rest

/-- A line conforms to the request pattern (as a searched substring,
anchored at the end of the line): some position begins an HTTP method
followed by whitespace, a url group drawn from the class `pc`,
whitespace, the `HTTP/x.y"` marker, and the trailing fields ending in
the decimal latency. -/
def Conforms (pc : Char → Bool) (s : List Char) : Prop :=
  ∃ pre m r, s = pre ++ m ++ r ∧ m ∈ methodLits ∧ BShape pc r

/-- Nearest integer with ties to even, the rounding of Python's
builtin `round` (`Rat.floor` is used so the definition evaluates by
kernel reduction). -/
def nearestEven (q : ℚ) : ℤ :=
  if q - q.floor < 1 / 2 then q.floor
  else if 1 / 2 < q - q.floor then q.floor + 1
  else if q.floor % 2 = 0 then q.floor else q.floor + 1

/-- Embedding of `round(x, 3)`. -/
def round3 (q : ℚ) : ℚ :=
  (nearestEven (q * 1000) : ℚ) / 1000

/-- The exceptions the pipeline can raise, plus the spec's Fatal-empty
signal.  `zeroDiv` is Python's `ZeroDivisionError`, `highFailRate` the
`Exception` raised by the corruption gate, `indexErr` an `IndexError`,
`statsErr` a `statistics.StatisticsError`.  The constructor
`fatalEmpty` is modelled from the spec's error taxonomy (the distinct
"Fatal-empty" signal of section 7); the embedded code never produces
it. -/
inductive PErr : Type
  | zeroDiv : PErr
  | highFailRate : ℚ → PErr
  | indexErr : PErr
  | statsErr : PErr
  | fatalEmpty : PErr
deriving DecidableEq, Repr

/-- Python division: raises `ZeroDivisionError` on a zero denominator. -/
def pyDiv (a b : ℚ) : Except PErr ℚ :=
  if b = 0 then Except.error PErr.zeroDiv else Except.ok (a / b)

/-- Embedding of `defaultdict(list)` update `data[url].append(t)`:
append to the list of an existing key, else add the key at the end
(Python dicts preserve insertion order). -/
def upsert : List (String × List ℚ) → String → ℚ → List (String × List ℚ)
  | [], u, t => [(u, [t])]
  | (k, v) :: rest, u, t =>
    if k = u then (k, v ++ [t]) :: rest else (k, v) :: upsert rest u t

/-- One iteration of the extraction loop of `parse_log_records`: the
state is `(data, successfully parsed count, failed count)`. -/
def foldLine (st : List (String × List ℚ) × ℕ × ℕ) (line : String) :
    List (String × List ℚ) × ℕ × ℕ :=
  match lineMatch line with
  | some (u, t) => (upsert st.1 u t, st.2.1 + 1, st.2.2)
  | none => (st.1, st.2.1, st.2.2 + 1)

/-- The whole extraction loop over the decoded lines of the stream. -/
def parseFold (lines : List String) : List (String × List ℚ) × ℕ × ℕ :=
  lines.foldl foldLine ([], 0, 0)

/-- Embedding of `parse_log_records` on the stream of decoded lines:
run the extraction loop, then compute
`failed_lines_ratio = total_failed_lines_count / total_lines_count`
(the denominator is the count of successfully parsed lines) and raise
if it exceeds `error_threshold`; the division happens before the
comparison, so a stream with zero parsed lines raises
`ZeroDivisionError`. -/
def parseLogRecords (lines : List String) (errorThreshold : ℚ) :
    Except PErr (List (String × List ℚ)) :=
  match pyDiv ((parseFold lines).2.2 : ℚ) ((parseFold lines).2.1 : ℚ) with
  | Except.error e => Except.error e
  | Except.ok fr =>
    if errorThreshold < fr then Except.error (PErr.highFailRate fr)
    else Except.ok (parseFold lines).1

/-- A report record as built by `build_report_object`. -/
structure Rec : Type where
  url : String
  count : ℕ
  count_perc : ℚ
  time_sum : ℚ
  time_perc : ℚ
  time_avg : ℚ
  time_max : ℚ
  time_med : ℚ
deriving DecidableEq, Repr

/-- Sum of a latency list, as `sum(request_times)`. -/
def qSum (l : List ℚ) : ℚ :=
  l.sum

/-- Maximum of a latency list (0 on the empty list, which the code
never queries). -/
def qMax : List ℚ → ℚ
  | [] => 0
  | a :: t => t.foldl max a

/-- Embedding of `sorted(request_times)` (on values, any sorted
permutation is the result of Python's sort). -/
def sortAscQ (l : List ℚ) : List ℚ :=
  l.insertionSort (· ≤ ·)

/-- Embedding of `sorted(request_times, reverse=False)[-1]`: Python's
`[-1]` raises `IndexError` on an empty list. -/
def lastElem (l : List ℚ) : Except PErr ℚ :=
  match l.getLast? with
  | some x => Except.ok x
  | none => Except.error PErr.indexErr

/-- Embedding of `statistics.median`: sort, then take the middle value
for odd length or the mean of the two middle values for even length;
the empty list raises `StatisticsError`. -/
def pyMedian (l : List ℚ) : Except PErr ℚ :=
  if l.length = 0 then Except.error PErr.statsErr
  else if l.length % 2 = 1 then Except.ok ((sortAscQ l).getD (l.length / 2) 0)
  else Except.ok (((sortAscQ l).getD (l.length / 2 - 1) 0 +
    (sortAscQ l).getD (l.length / 2) 0) / 2)

/-- Total number of samples across all endpoints, as `count_total`. -/
def countTotal (stats : List (String × List ℚ)) : ℚ :=
  ((stats.map (fun e => e.2.length)).sum : ℕ)

/-- Total time across all endpoints, as `time_sum_total` (unrounded). -/
def timeTotal (stats : List (String × List ℚ)) : ℚ :=
  (stats.map (fun e => qSum e.2)).sum

/-- Build one report record, with the divisions performed in the
evaluation order of the dict literal of `build_report_object`:
`count_perc` (by `count_total`), then `time_perc` (by
`time_sum_total`), then `time_avg` (by the endpoint's count), then
`time_max` and `time_med`. -/
def buildRec (c t : ℚ) (e : String × List ℚ) : Except PErr Rec := do
  let cnt : ℕ := e.2.length
  let s : ℚ := qSum e.2
  let cp ← pyDiv cnt c
  let tp ← pyDiv s t
  let ta ← pyDiv s cnt
  let tmax ← lastElem (sortAscQ e.2)
  let tmed ← pyMedian e.2
  Except.ok
    { url := e.1
      count := cnt
      count_perc := round3 (cp * 100)
      time_sum := round3 s
      time_perc := round3 (tp * 100)
      time_avg := round3 ta
      time_max := tmax
      time_med := round3 tmed }

/-- The for-loop of `build_report_object`: build the records in
iteration order, aborting on the first raised exception. -/
def mapE {α β : Type} (f : α → Except PErr β) : List α → Except PErr (List β)
  | [] => Except.ok []
  | a :: as =>
    match f a with
    | Except.error e => Except.error e
    | Except.ok b =>
      match mapE f as with
      | Except.error e => Except.error e
      | Except.ok bs => Except.ok (b :: bs)

/-- Embedding of `build_report_object`: the two totals are computed
across all endpoints first, then each endpoint's record is derived. -/
def buildReportObject (stats : List (String × List ℚ)) :
    Except PErr (List Rec) :=
  mapE (buildRec (countTotal stats) (timeTotal stats)) stats

/-- The descending key order of `filter_report`'s sort:
`key=lambda x: x["time_sum"], reverse=True`. -/
def timeGe (a b : Rec) : Prop :=
  b.time_sum ≤ a.time_sum

instance : DecidableRel timeGe :=
  fun a b => inferInstanceAs (Decidable (b.time_sum ≤ a.time_sum))

instance : IsTotal Rec timeGe :=
  ⟨fun a b => le_total b.time_sum a.time_sum⟩

instance : IsTrans Rec timeGe :=
  ⟨fun _ _ _ hab hbc => le_trans hbc hab⟩

/-- Embedding of `sorted(report_data, key=lambda x: x["time_sum"],
reverse=True)` — a stable descending sort (ties keep their original
relative order, as in Python's stable `sorted`). -/
def sortDescRec (l : List Rec) : List Rec :=
  l.insertionSort timeGe

/-- Embedding of `filter_report`: stable descending sort by `time_sum`
followed by the slice `[:report_size]`. -/
def filterReport (reportData : List Rec) (reportSize : ℕ) : List Rec :=
  (sortDescRec reportData).take reportSize

/-- Caller-visible outcome of one pipeline run, as driven by `main`:
a generated report, the clean informational exit taken when the parsed
mapping is empty (`sys.exit(0)` after logging), or a raised error. -/
inductive RunOutcome : Type
  | success : List Rec → RunOutcome
  | emptyInfoExit : RunOutcome
  | failure : PErr → RunOutcome
deriving DecidableEq, Repr

/-- Embedding of the pipeline portion of `main`: parse the stream,
exit cleanly if the mapping is empty, otherwise build, rank and
truncate the report. -/
def runMain (lines : List String) (errorThreshold : ℚ) (reportSize : ℕ) :
    RunOutcome :=
  match parseLogRecords lines errorThreshold with
  | Except.error e => RunOutcome.failure e
  | Except.ok stats =>
    if stats.isEmpty then RunOutcome.emptyInfoExit
    else
      match buildReportObject stats with
      | Except.error e => RunOutcome.failure e
      | Except.ok reportData =>
        RunOutcome.success (filterReport reportData reportSize)

/-! Characterization of the line matcher: success of the operational
backtracking matcher is equivalent to the declarative decomposition of
the line. -/

theorem all_takeWhile (p : Char → Bool) (l : List Char) :
    (l.takeWhile p).all p = true := by
  induction l with
  | nil => rfl
  | cons c cs ih =>
    cases h : p c with
    | true => simp [List.takeWhile_cons, h, ih]
    | false => simp [List.takeWhile_cons, h]

theorem dropWhile_head_false (p : Char → Bool) (l : List Char) (h : Char)
    (t : List Char) (hd : l.dropWhile p = h :: t) : p h = false := by
  induction l with
  | nil => simp [List.dropWhile] at hd
  | cons c cs ih =>
    cases hc : p c with
    | true => exact ih (by simpa [List.dropWhile_cons, hc] using hd)
    | false =>
      rw [List.dropWhile_cons, if_neg (by simp [hc])] at hd
      cases hd
      exact hc

theorem takeWhile_append_cons (p : Char → Bool) (w : List Char) (h : Char)
    (t : List Char) (hw : w.all p = true) (hh : p h = false) :
    (w ++ h :: t).takeWhile p = w ∧ (w ++ h :: t).dropWhile p = h :: t := by
  induction w with
  | nil => simp [List.takeWhile_cons, List.dropWhile_cons, hh]
  | cons a w ih =>
    rw [List.all_cons, Bool.and_eq_true_iff] at hw
    have := ih hw.2
    simp [List.takeWhile_cons, List.dropWhile_cons, hw.1, this.1, this.2]

theorem firstDesc_isSome {α : Type} (f : ℕ → Option α) (n : ℕ) :
    (firstDesc f n).isSome = true ↔
      ∃ k, 1 ≤ k ∧ k ≤ n ∧ (f k).isSome = true := by
  induction n with
  | zero =>
    simp only [firstDesc]
    constructor
    · intro h; simp at h
    · rintro ⟨k, h1, h2, _⟩; omega
  | succ n ih =>
    simp only [firstDesc]
    cases hf : f (n + 1) with
    | some a =>
      simp only [Option.isSome_some, true_iff]
      exact ⟨n + 1, by omega, by omega, by simp [hf]⟩
    | none =>
      rw [ih]
      constructor
      · rintro ⟨k, h1, h2, h3⟩; exact ⟨k, h1, by omega, h3⟩
      · rintro ⟨k, h1, h2, h3⟩
        refine ⟨k, h1, ?_, h3⟩
        rcases Nat.lt_or_ge k (n + 1) with hk | hk
        · omega
        · exfalso
          have : k = n + 1 := by omega
          rw [this, hf] at h3
          simp at h3

theorem split_shape_iff (p : Char → Bool) (Q : List Char → Prop)
    (r : List Char) :
    (∃ k, 1 ≤ k ∧ k ≤ r.length ∧ ((r.take k).all p = true ∧ Q (r.drop k))) ↔
      ∃ x y, r = x ++ y ∧ x ≠ [] ∧ x.all p = true ∧ Q y := by
  constructor
  · rintro ⟨k, h1, h2, hall, hQ⟩
    refine ⟨r.take k, r.drop k, (List.take_append_drop k r).symm, ?_, hall, hQ⟩
    have : (r.take k).length = k := by
      rw [List.length_take]; omega
    intro hnil
    rw [hnil] at this
    simp at this
    omega
  · rintro ⟨x, y, rfl, hx, hall, hQ⟩
    refine ⟨x.length, ?_, ?_, ?_, ?_⟩
    · have : 0 < x.length := List.length_pos.mpr hx
      omega
    · simp
    · rw [List.take_left]; exact hall
    · rw [List.drop_left]; exact hQ

theorem timeOk_iff (t : List Char) : timeOk t = true ↔ TimeShape t := by
  constructor
  · intro h
    unfold timeOk at h
    rcases hr : t.dropWhile isDigitC with _ | ⟨c, t2⟩
    · rw [hr] at h; simp at h
    · rw [hr] at h
      simp only [Bool.and_eq_true_iff] at h
      rcases h with ⟨h1, ⟨hdot, h2⟩, hall2⟩
      have hc : c = '.' := by simpa using hdot
      subst hc
      refine ⟨t.takeWhile isDigitC, t2, ?_, ?_, all_takeWhile _ _, ?_, hall2⟩
      · rw [← hr, List.takeWhile_append_dropWhile]
      · simpa using h1
      · simpa using h2
  · rintro ⟨t1, t2, rfl, h1, hall1, h2, hall2⟩
    have hsplit := takeWhile_append_cons isDigitC t1 '.' t2 hall1 (by decide)
    unfold timeOk
    rw [hsplit.1, hsplit.2]
    simp [h1, h2, hall2]

theorem gHit_isSome (r : List Char) (k : ℕ) :
    (gHit r k).isSome = true ↔
      ((r.take k).all isDotC = true ∧
        ∃ h t, r.drop k = h :: t ∧ isWs h = true ∧ timeOk t = true) := by
  unfold gHit
  by_cases hall : (r.take k).all isDotC = true
  · rw [if_pos hall]
    cases hd : r.drop k with
    | nil => simp [hall]
    | cons h t =>
      by_cases hws : (isWs h && timeOk t) = true
      · simp only [hws, if_true, Option.isSome_some, true_iff]
        rcases Bool.and_eq_true_iff.mp hws with ⟨h1, h2⟩
        exact ⟨hall, h, t, rfl, h1, h2⟩
      · simp only [hws, if_false]
        constructor
        · intro hc; simp at hc
        · rintro ⟨-, h', t', heq, hw, ht⟩
          cases heq
          exact absurd (by simp [hw, ht]) hws
  · rw [if_neg hall]
    constructor
    · intro hc; simp at hc
    · rintro ⟨h1, -⟩; exact absurd h1 hall

theorem gStage_isSome (r : List Char) :
    (gStage r).isSome = true ↔ TailShape r := by
  unfold gStage
  rw [firstDesc_isSome]
  have : (∃ k, 1 ≤ k ∧ k ≤ r.length ∧ (gHit r k).isSome = true) ↔
      (∃ k, 1 ≤ k ∧ k ≤ r.length ∧
        ((r.take k).all isDotC = true ∧
          ∃ h t, r.drop k = h :: t ∧ isWs h = true ∧ timeOk t = true)) := by
    constructor
    · rintro ⟨k, h1, h2, h3⟩; exact ⟨k, h1, h2, (gHit_isSome r k).mp h3⟩
    · rintro ⟨k, h1, h2, h3⟩; exact ⟨k, h1, h2, (gHit_isSome r k).mpr h3⟩
  rw [this, split_shape_iff isDotC
    (fun y => ∃ h t, y = h :: t ∧ isWs h = true ∧ timeOk t = true) r]
  constructor
  · rintro ⟨x, y, rfl, hx, hall, h, t, rfl, hw, ht⟩
    exact ⟨x, h, t, rfl, hx, hall, hw, (timeOk_iff t).mp ht⟩
  · rintro ⟨g, h, t, rfl, hg, hall, hw, ht⟩
    exact ⟨g, h :: t, rfl, hg, hall, h, t, rfl, hw, (timeOk_iff t).mpr ht⟩

theorem efgStage_isSome (r : List Char) :
    (efgStage r).isSome = true ↔ MarkShape r := by
  constructor
  · intro h
    unfold efgStage at h
    split at h
    · rename_i d1 d2 f rest
      split at h
      · rename_i hcond
        rcases Bool.and_eq_true_iff.mp hcond with ⟨h12, hf⟩
        rcases Bool.and_eq_true_iff.mp h12 with ⟨h1, h2⟩
        exact ⟨d1, d2, f, rest, rfl, h1, h2, hf, (gStage_isSome rest).mp h⟩
      · simp at h
    · simp at h
  · rintro ⟨d1, d2, f, rest, rfl, h1, h2, hf, htail⟩
    have hred : efgStage
        ('H' :: 'T' :: 'T' :: 'P' :: '/' :: d1 :: '.' :: d2 :: '"' :: f :: rest) =
        if (isDigitC d1 && isDigitC d2 && isWs f) = true then gStage rest
        else none := rfl
    rw [hred, if_pos (by simp [h1, h2, hf])]
    exact (gStage_isSome rest).mpr htail

theorem dStage_isSome (r : List Char) :
    (dStage r).isSome = true ↔ DShape r := by
  constructor
  · intro h
    unfold dStage at h
    by_cases he : (r.takeWhile isWs).isEmpty = true
    · rw [if_pos he] at h; simp at h
    · rw [if_neg he] at h
      refine ⟨r.takeWhile isWs, r.dropWhile isWs, ?_, ?_, all_takeWhile _ _,
        (efgStage_isSome _).mp h⟩
      · exact (List.takeWhile_append_dropWhile (p := isWs) (l := r)).symm
      · simpa using he
  · rintro ⟨w, rest, rfl, hw, hall, hmark⟩
    rcases hmark with ⟨d1, d2, f, rr, rfl, h1, h2, hf, htail⟩
    have hsplit := takeWhile_append_cons isWs w 'H'
      ('T' :: 'T' :: 'P' :: '/' :: d1 :: '.' :: d2 :: '"' :: f :: rr) hall
      (by decide)
    unfold dStage
    rw [hsplit.1, hsplit.2, if_neg (by simpa using hw)]
    exact (efgStage_isSome _).mpr ⟨d1, d2, f, rr, rfl, h1, h2, hf, htail⟩

theorem cHit_isSome (pc : Char → Bool) (r : List Char) (c : ℕ) :
    (cHit pc r c).isSome = true ↔
      ((r.take c).all pc = true ∧ (dStage (r.drop c)).isSome = true) := by
  unfold cHit
  by_cases hall : (r.take c).all pc = true
  · rw [if_pos hall]
    simp [Option.isSome_map', hall]
  · rw [if_neg hall]
    simp [hall]

theorem cStage_isSome (pc : Char → Bool) (r : List Char) :
    (cStage pc r).isSome = true ↔ CShape pc r := by
  unfold cStage
  rw [firstDesc_isSome]
  have heq : (∃ k, 1 ≤ k ∧ k ≤ r.length ∧ (cHit pc r k).isSome = true) ↔
      (∃ k, 1 ≤ k ∧ k ≤ r.length ∧
        ((r.take k).all pc = true ∧ DShape (r.drop k))) := by
    constructor
    · rintro ⟨k, h1, h2, h3⟩
      rcases (cHit_isSome pc r k).mp h3 with ⟨ha, hb⟩
      exact ⟨k, h1, h2, ha, (dStage_isSome _).mp hb⟩
    · rintro ⟨k, h1, h2, ha, hb⟩
      exact ⟨k, h1, h2, (cHit_isSome pc r k).mpr ⟨ha, (dStage_isSome _).mpr hb⟩⟩
  rw [heq, split_shape_iff pc DShape r]
  rfl

theorem bHit_isSome (pc : Char → Bool) (r : List Char) (b : ℕ) :
    (bHit pc r b).isSome = true ↔
      ((r.take b).all isWs = true ∧ CShape pc (r.drop b)) := by
  unfold bHit
  by_cases hall : (r.take b).all isWs = true
  · rw [if_pos hall]
    rw [cStage_isSome]
    simp [hall]
  · rw [if_neg hall]
    simp [hall]

theorem bStage_isSome (pc : Char → Bool) (r : List Char) :
    (bStage pc r).isSome = true ↔ BShape pc r := by
  unfold bStage
  rw [firstDesc_isSome]
  have heq : (∃ k, 1 ≤ k ∧ k ≤ r.length ∧ (bHit pc r k).isSome = true) ↔
      (∃ k, 1 ≤ k ∧ k ≤ r.length ∧
        ((r.take k).all isWs = true ∧ CShape pc (r.drop k))) := by
    constructor
    · rintro ⟨k, h1, h2, h3⟩
      rcases (bHit_isSome pc r k).mp h3 with ⟨ha, hb⟩
      exact ⟨k, h1, h2, ha, hb⟩
    · rintro ⟨k, h1, h2, ha, hb⟩
      exact ⟨k, h1, h2, (bHit_isSome pc r k).mpr ⟨ha, hb⟩⟩
  rw [heq, split_shape_iff isWs (CShape pc) r]
  rfl

theorem dropLit_eq (p : List Char) : ∀ s r : List Char,
    (dropLit p s = some r ↔ s = p ++ r) := by
  induction p with
  | nil =>
    intro s r
    simp [dropLit, eq_comm]
  | cons c p ih =>
    intro s r
    cases s with
    | nil => simp [dropLit]
    | cons d s' =>
      by_cases hc : c = d
      · subst hc
        rw [show dropLit (c :: p) (c :: s') = dropLit p s' by simp [dropLit]]
        rw [ih s' r]
        constructor
        · intro h; rw [h]; rfl
        · intro h; injection h
      · rw [show dropLit (c :: p) (d :: s') = none by simp [dropLit, hc]]
        constructor
        · intro h; cases h
        · intro h
          injection h with h1 _
          exact absurd h1.symm hc

theorem methodRest_of_lit (m r : List Char) (hm : m ∈ methodLits) :
    methodRest (m ++ r) = some r := by
  rcases (by simpa [methodLits] using hm :
      m = ['P', 'O', 'S', 'T'] ∨ m = ['G', 'E', 'T'] ∨ m = ['H', 'E', 'A', 'D'] ∨
        m = ['P', 'U', 'T'] ∨ m = ['O', 'P', 'T', 'I', 'O', 'N', 'S']) with
    h | h | h | h | h <;> subst h <;> rfl

theorem methodRest_eq (s r : List Char) :
    methodRest s = some r ↔ ∃ m, m ∈ methodLits ∧ s = m ++ r := by
  constructor
  · intro h
    unfold methodRest at h
    rcases h1 : dropLit ['P', 'O', 'S', 'T'] s with _ | r1
    · rw [h1] at h
      rcases h2 : dropLit ['G', 'E', 'T'] s with _ | r2
      · rw [h2] at h
        rcases h3 : dropLit ['H', 'E', 'A', 'D'] s with _ | r3
        · rw [h3] at h
          rcases h4 : dropLit ['P', 'U', 'T'] s with _ | r4
          · rw [h4] at h
            exact ⟨['O', 'P', 'T', 'I', 'O', 'N', 'S'], by simp [methodLits],
              (dropLit_eq _ _ _).mp h⟩
          · rw [h4] at h
            cases h
            exact ⟨['P', 'U', 'T'], by simp [methodLits], (dropLit_eq _ _ _).mp h4⟩
        · rw [h3] at h
          cases h
          exact ⟨['H', 'E', 'A', 'D'], by simp [methodLits], (dropLit_eq _ _ _).mp h3⟩
      · rw [h2] at h
        cases h
        exact ⟨['G', 'E', 'T'], by simp [methodLits], (dropLit_eq _ _ _).mp h2⟩
    · rw [h1] at h
      cases h
      exact ⟨['P', 'O', 'S', 'T'], by simp [methodLits], (dropLit_eq _ _ _).mp h1⟩
  · rintro ⟨m, hm, rfl⟩
    exact methodRest_of_lit m r hm

theorem matchHere_isSome (pc : Char → Bool) (s : List Char) :
    (matchHere pc s).isSome = true ↔
      ∃ m r, s = m ++ r ∧ m ∈ methodLits ∧ BShape pc r := by
  constructor
  · intro h
    unfold matchHere at h
    rcases hm : methodRest s with _ | r0
    · rw [hm] at h; simp at h
    · rw [hm] at h
      rcases (methodRest_eq s r0).mp hm with ⟨m, hmem, rfl⟩
      exact ⟨m, r0, rfl, hmem, (bStage_isSome pc r0).mp h⟩
  · rintro ⟨m, r, rfl, hmem, hb⟩
    unfold matchHere
    rw [methodRest_of_lit m r hmem]
    exact (bStage_isSome pc r).mpr hb

theorem searchFrom_isSome (pc : Char → Bool) : ∀ s : List Char,
    ((searchFrom pc s).isSome = true ↔ Conforms pc s) := by
  intro s
  induction s with
  | nil =>
    simp only [searchFrom]
    constructor
    · intro h; simp at h
    · rintro ⟨pre, m, r, heq, hm, -⟩
      exfalso
      have hne : m ≠ [] := by
        rcases (by simpa [methodLits] using hm :
            m = ['P', 'O', 'S', 'T'] ∨ m = ['G', 'E', 'T'] ∨
              m = ['H', 'E', 'A', 'D'] ∨ m = ['P', 'U', 'T'] ∨
              m = ['O', 'P', 'T', 'I', 'O', 'N', 'S']) with
          h | h | h | h | h <;> subst h <;> simp
      have : pre ++ m ++ r = [] := heq.symm
      simp only [List.append_eq_nil] at this
      exact hne this.1.2
  | cons c rest ih =>
    simp only [searchFrom]
    rcases hmh : matchHere pc (c :: rest) with _ | p
    · simp only [Option.isSome_none]
      rw [ih]
      constructor
      · rintro ⟨pre, m, r, heq, hm, hb⟩
        exact ⟨c :: pre, m, r, by simp [heq], hm, hb⟩
      · rintro ⟨pre, m, r, heq, hm, hb⟩
        cases pre with
        | nil =>
          exfalso
          have : (matchHere pc (c :: rest)).isSome = true :=
            (matchHere_isSome pc _).mpr ⟨m, r, by simpa using heq, hm, hb⟩
          rw [hmh] at this
          simp at this
        | cons p pre' =>
          injection heq with h1 h2
          exact ⟨pre', m, r, h2, hm, hb⟩
    · simp only [Option.isSome_some, true_iff]
      have : (matchHere pc (c :: rest)).isSome = true := by simp [hmh]
      rcases (matchHere_isSome pc _).mp this with ⟨m, r, heq, hm, hb⟩
      exact ⟨[], m, r, by simpa using heq, hm, hb⟩

theorem lineMatch_isSome (s : String) :
    (lineMatch s).isSome = true ↔ Conforms isDotC s.data := by
  unfold lineMatch
  rcases hs : searchFrom isDotC s.data with _ | ⟨u, t⟩
  · rw [← searchFrom_isSome isDotC s.data, hs]
    simp
  · rw [← searchFrom_isSome isDotC s.data, hs]
    simp

/-! Lemmas about the extraction loop and the corruption gate. -/

theorem upsert_ne_nil (l : List (String × List ℚ)) (u : String) (t : ℚ) :
    upsert l u t ≠ [] := by
  cases l with
  | nil => simp [upsert]
  | cons e rest =>
    rcases e with ⟨k, v⟩
    by_cases hk : k = u <;> simp [upsert, hk]

theorem parseFold_data_nil (lines : List String) :
    ∀ st : List (String × List ℚ) × ℕ × ℕ, (st.1 = [] → st.2.1 = 0) →
      ((lines.foldl foldLine st).1 = [] → (lines.foldl foldLine st).2.1 = 0) := by
  induction lines with
  | nil => intro st h; exact h
  | cons l ls ih =>
    intro st h
    rw [List.foldl_cons]
    apply ih
    unfold foldLine
    rcases hm : lineMatch l with _ | ⟨u, t⟩
    · exact h
    · intro hnil
      exact absurd hnil (upsert_ne_nil st.1 u t)

theorem parseFold_ok_zero (lines : List String)
    (h : (parseFold lines).1 = []) : (parseFold lines).2.1 = 0 :=
  parseFold_data_nil lines ([], 0, 0) (fun _ => rfl) h

/-! Lemmas about the rounding function. -/

theorem ratFloor_eq_intFloor (q : ℚ) : q.floor = ⌊q⌋ := by
  rw [Rat.floor_def, Rat.floor_def']

theorem nearestEven_err (q : ℚ) : |(nearestEven q : ℚ) - q| ≤ 1 / 2 := by
  unfold nearestEven
  rw [ratFloor_eq_intFloor]
  have h0 : (0 : ℚ) ≤ q - ⌊q⌋ := by
    have := Int.floor_le q
    linarith
  have h1 : q - ⌊q⌋ < 1 := by
    have := Int.lt_floor_add_one q
    linarith
  by_cases hlt : q - (⌊q⌋ : ℚ) < 1 / 2
  · rw [if_pos hlt]
    rw [abs_le]
    constructor <;> linarith
  · rw [if_neg hlt]
    by_cases hgt : (1 : ℚ) / 2 < q - ⌊q⌋
    · rw [if_pos hgt]
      rw [abs_le]
      push_cast
      constructor <;> linarith
    · rw [if_neg hgt]
      have heq : q - (⌊q⌋ : ℚ) = 1 / 2 := by linarith
      by_cases hev : ⌊q⌋ % 2 = 0
      · rw [if_pos hev, abs_le]
        constructor <;> linarith
      · rw [if_neg hev, abs_le]
        push_cast
        constructor <;> linarith

theorem round3_err (q : ℚ) : |round3 q - q| ≤ 1 / 1000 := by
  unfold round3
  have h := nearestEven_err (q * 1000)
  have heq : (nearestEven (q * 1000) : ℚ) / 1000 - q =
      ((nearestEven (q * 1000) : ℚ) - q * 1000) / 1000 := by ring
  rw [heq, abs_div]
  rw [show |(1000 : ℚ)| = 1000 by norm_num]
  rw [div_le_iff₀ (by norm_num)]
  calc |(nearestEven (q * 1000) : ℚ) - q * 1000| ≤ 1 / 2 := h
    _ ≤ 1 / 1000 * 1000 := by norm_num

theorem sum_map_round3_err (l : List ℚ) :
    |(l.map round3).sum - l.sum| ≤ (l.length : ℚ) / 1000 := by
  induction l with
  | nil => simp
  | cons a t ih =>
    have ha := round3_err a
    have htri : |(round3 a - a) + ((t.map round3).sum - t.sum)| ≤
        |round3 a - a| + |(t.map round3).sum - t.sum| := abs_add _ _
    have heq : ((a :: t).map round3).sum - (a :: t).sum =
        (round3 a - a) + ((t.map round3).sum - t.sum) := by
      simp [List.sum_cons]
      ring
    rw [heq]
    have hlen : ((a :: t).length : ℚ) = (t.length : ℚ) + 1 := by
      push_cast [List.length_cons]
      ring
    rw [hlen]
    calc |(round3 a - a) + ((t.map round3).sum - t.sum)| ≤
        |round3 a - a| + |(t.map round3).sum - t.sum| := htri
      _ ≤ 1 / 1000 + (t.length : ℚ) / 1000 := by
          exact add_le_add ha ih
      _ = ((t.length : ℚ) + 1) / 1000 := by ring

/-! Lemmas about the statistics builder. -/

theorem mapE_ok_forall {α β : Type} (f : α → Except PErr β) :
    ∀ (l : List α) (bs : List β), mapE f l = Except.ok bs →
      List.Forall₂ (fun a b => f a = Except.ok b) l bs := by
  intro l
  induction l with
  | nil =>
    intro bs h
    simp only [mapE] at h
    cases h
    exact List.Forall₂.nil
  | cons a as ih =>
    intro bs h
    simp only [mapE] at h
    rcases hf : f a with e | b
    · rw [hf] at h; cases h
    · rw [hf] at h
      rcases hm : mapE f as with e | bs'
      · rw [hm] at h; cases h
      · rw [hm] at h
        cases h
        exact List.Forall₂.cons hf (ih bs' hm)

theorem mapE_error_of_head {α β : Type} (f : α → Except PErr β) (a : α)
    (as : List α) (e : PErr) (hf : f a = Except.error e) :
    mapE f (a :: as) = Except.error e := by
  simp only [mapE, hf]

theorem sorted_le_getLast :
    ∀ (l : List ℚ), l.Sorted (· ≤ ·) → ∀ (m : ℚ), l.getLast? = some m →
      ∀ x ∈ l, x ≤ m := by
  intro l
  induction l with
  | nil => intro _ m hm; cases hm
  | cons a t ih =>
    intro hs m hm x hx
    cases t with
    | nil =>
      have hxa : x = a := by simpa using hx
      have ham : a = m := by simpa using hm
      rw [hxa, ham]
    | cons b t' =>
      have hm' : (b :: t').getLast? = some m := by
        rw [← hm]
        simp [List.getLast?]
      have hs' : (b :: t').Sorted (· ≤ ·) := hs.of_cons
      rcases List.mem_cons.mp hx with rfl | hx'
      · have hab : x ≤ b := (List.rel_of_sorted_cons hs) b (by simp)
        have hbm : b ≤ m := ih hs' m hm' b (by simp)
        linarith
      · exact ih hs' m hm' x hx'

theorem getLast?_mem : ∀ (l : List ℚ) (m : ℚ), l.getLast? = some m → m ∈ l := by
  intro l
  induction l with
  | nil => intro m hm; cases hm
  | cons a t ih =>
    intro m hm
    cases t with
    | nil => simp at hm; simp [hm]
    | cons b t' =>
      have hm' : (b :: t').getLast? = some m := by
        rw [← hm]; simp [List.getLast?]
      exact List.mem_cons_of_mem a (ih m hm')

theorem lastElem_sortAscQ_max (l : List ℚ) (m : ℚ)
    (h : lastElem (sortAscQ l) = Except.ok m) :
    m ∈ l ∧ ∀ x ∈ l, x ≤ m := by
  unfold lastElem at h
  rcases hg : (sortAscQ l).getLast? with _ | mg
  · rw [hg] at h; cases h
  · rw [hg] at h
    injection h with h
    subst h
    have hperm : List.Perm (sortAscQ l) l := List.perm_insertionSort _ _
    have hsorted : (sortAscQ l).Sorted (· ≤ ·) := List.sorted_insertionSort _ _
    constructor
    · exact hperm.subset (getLast?_mem _ _ hg)
    · intro x hx
      exact sorted_le_getLast _ hsorted _ hg x (hperm.mem_iff.mpr hx)

theorem buildRec_ok (c t : ℚ) (e : String × List ℚ) (r : Rec)
    (h : buildRec c t e = Except.ok r) :
    c ≠ 0 ∧ t ≠ 0 ∧ e.2 ≠ [] ∧
      r.url = e.1 ∧ r.count = e.2.length ∧
      r.count_perc = round3 ((e.2.length : ℚ) / c * 100) ∧
      r.time_sum = round3 (qSum e.2) ∧
      r.time_perc = round3 (qSum e.2 / t * 100) ∧
      r.time_avg = round3 (qSum e.2 / (e.2.length : ℚ)) ∧
      (r.time_max ∈ e.2 ∧ ∀ x ∈ e.2, x ≤ r.time_max) ∧
      (∃ mv, pyMedian e.2 = Except.ok mv ∧ r.time_med = round3 mv) := by
  unfold buildRec at h
  simp only [bind, Except.bind] at h
  unfold pyDiv at h
  by_cases hc : c = 0
  · rw [if_pos hc] at h; cases h
  · rw [if_neg hc] at h
    by_cases ht : t = 0
    · rw [if_pos ht] at h; cases h
    · rw [if_neg ht] at h
      by_cases hcnt : ((e.2.length : ℚ)) = 0
      · rw [if_pos hcnt] at h; cases h
      · rw [if_neg hcnt] at h
        rcases hmax : lastElem (sortAscQ e.2) with em | mx
        · rw [hmax] at h; cases h
        · rw [hmax] at h
          rcases hmed : pyMedian e.2 with em | mv
          · rw [hmed] at h; cases h
          · rw [hmed] at h
            cases h
            have hne : e.2 ≠ [] := by
              intro hnil
              rw [hnil] at hcnt
              simp at hcnt
            refine ⟨hc, ht, hne, rfl, rfl, rfl, rfl, rfl, rfl, ?_, mv, rfl, rfl⟩
            exact lastElem_sortAscQ_max e.2 mx hmax

theorem forall₂_map_eq {α β γ : Type} (P : α → β → Prop) (f : β → γ)
    (g : α → γ) :
    ∀ (l : List α) (bs : List β), List.Forall₂ P l bs →
      (∀ a b, P a b → f b = g a) → bs.map f = l.map g := by
  intro l
  induction l with
  | nil =>
    intro bs h _
    cases h
    rfl
  | cons a as ih =>
    intro bs h hfg
    cases h with
    | cons hab htail =>
      simp only [List.map_cons]
      rw [hfg a _ hab, ih _ htail hfg]

/-! Stability of the descending sort of `filter_report`: the records
holding any fixed `time_sum` value appear in the sorted output in their
original relative order. -/

theorem filter_orderedInsert (q : ℚ) (x : Rec) (l : List Rec) :
    (List.orderedInsert timeGe x l).filter (fun r => decide (r.time_sum = q)) =
      ((x :: l).filter (fun r => decide (r.time_sum = q))) := by
  induction l with
  | nil => rfl
  | cons y ys ih =>
    by_cases hxy : timeGe x y
    · simp only [List.orderedInsert, if_pos hxy]
    · simp only [List.orderedInsert, if_neg hxy]
      have hlt : x.time_sum < y.time_sum := not_le.mp hxy
      cases hyd : decide (y.time_sum = q) with
      | false =>
        simp only [List.filter_cons, hyd, if_false, Bool.false_eq_true, ite_false] at *
        rw [ih]
        try simp only [List.filter_cons]
      | true =>
        have hyq : y.time_sum = q := of_decide_eq_true hyd
        have hxd : decide (x.time_sum = q) = false := by
          apply decide_eq_false
          rw [← hyq]
          exact ne_of_lt hlt
        simp only [List.filter_cons, hyd, hxd, if_true, if_false,
          Bool.false_eq_true, ite_false, ite_true] at *
        rw [ih]
        try simp only [List.filter_cons, hxd, Bool.false_eq_true, ite_false]

theorem filter_sortDescRec (q : ℚ) (l : List Rec) :
    (sortDescRec l).filter (fun r => decide (r.time_sum = q)) =
      l.filter (fun r => decide (r.time_sum = q)) := by
  unfold sortDescRec
  induction l with
  | nil => rfl
  | cons x xs ih =>
    simp only [List.insertionSort]
    rw [filter_orderedInsert]
    simp only [List.filter_cons]
    cases hxd : decide (x.time_sum = q) with
    | false => simpa [hxd] using ih
    | true => simpa [hxd] using ih

/-! The claims. -/

/-- C1: for every log stream in which at least one line is successfully
extracted, `parse_log_records` raises a fatal error if and only if
`failed_lines / successfully_parsed_lines > error_threshold`; the ratio
is computed after the whole stream has been folded and its denominator
is the count of successfully parsed lines; when the ratio does not
exceed the threshold the endpoint-to-latencies mapping is returned
normally. -/
theorem corruption_gate_threshold (lines : List String) (th : ℚ)
    (h : 1 ≤ (parseFold lines).2.1) :
    ((∃ e, parseLogRecords lines th = Except.error e) ↔
        th < ((parseFold lines).2.2 : ℚ) / ((parseFold lines).2.1 : ℚ)) ∧
      (¬ th < ((parseFold lines).2.2 : ℚ) / ((parseFold lines).2.1 : ℚ) →
        parseLogRecords lines th = Except.ok (parseFold lines).1) ∧
      (th < ((parseFold lines).2.2 : ℚ) / ((parseFold lines).2.1 : ℚ) →
        parseLogRecords lines th = Except.error (PErr.highFailRate
          (((parseFold lines).2.2 : ℚ) / ((parseFold lines).2.1 : ℚ)))) := by
  have hne : (((parseFold lines).2.1 : ℕ) : ℚ) ≠ 0 := by
    rw [Nat.cast_ne_zero]
    omega
  have hq : pyDiv ((parseFold lines).2.2 : ℚ) ((parseFold lines).2.1 : ℚ) =
      Except.ok (((parseFold lines).2.2 : ℚ) / ((parseFold lines).2.1 : ℚ)) := by
    unfold pyDiv
    rw [if_neg hne]
  have hmain : parseLogRecords lines th =
      if th < ((parseFold lines).2.2 : ℚ) / ((parseFold lines).2.1 : ℚ) then
        Except.error (PErr.highFailRate
          (((parseFold lines).2.2 : ℚ) / ((parseFold lines).2.1 : ℚ)))
      else Except.ok (parseFold lines).1 := by
    unfold parseLogRecords
    rw [hq]
  rw [hmain]
  by_cases hth : th < ((parseFold lines).2.2 : ℚ) / ((parseFold lines).2.1 : ℚ)
  · rw [if_pos hth]
    exact ⟨⟨fun _ => hth, fun _ => ⟨_, rfl⟩⟩, fun hc => absurd hth hc,
      fun _ => rfl⟩
  · rw [if_neg hth]
    refine ⟨⟨?_, fun hc => absurd hc hth⟩, fun _ => rfl, fun hc => absurd hc hth⟩
    rintro ⟨e, he⟩
    cases he

/-- Witness for C1: a one-line stream whose single line parses, with
threshold `0.1`; the gate passes and the mapping is returned. -/
theorem corruption_gate_threshold_witness :
    1 ≤ (parseFold ["GET a HTTP/1.1\" b 0.5"]).2.1 ∧
      (¬ (1 : ℚ) / 10 <
          ((parseFold ["GET a HTTP/1.1\" b 0.5"]).2.2 : ℚ) /
            ((parseFold ["GET a HTTP/1.1\" b 0.5"]).2.1 : ℚ) →
        parseLogRecords ["GET a HTTP/1.1\" b 0.5"] ((1 : ℚ) / 10) =
          Except.ok (parseFold ["GET a HTTP/1.1\" b 0.5"]).1) :=
  ⟨by decide, (corruption_gate_threshold ["GET a HTTP/1.1\" b 0.5"]
    ((1 : ℚ) / 10) (by decide)).2.1⟩

/-- C2: the code contains no zero-successes check before the ratio
division: a stream in which zero lines parse (an empty stream, or one
of only unparseable lines) raises a bare `ZeroDivisionError` from
`failed / successful` instead of the descriptive fatal "no parseable
data" error the spec requires.  The theorem evaluates the code at the
failing inputs. -/
theorem zero_success_division_crash :
    parseLogRecords [] ((1 : ℚ) / 10) = Except.error PErr.zeroDiv ∧
      parseLogRecords ["junk"] ((1 : ℚ) / 10) = Except.error PErr.zeroDiv := by
  exact ⟨rfl, rfl⟩

/-- Counterexample for C3: on a run whose aggregation produces no
endpoints, the pipeline fails with `ZeroDivisionError` from the
corruption-gate division, not with the spec's distinct Fatal-empty
signal. -/
theorem no_endpoints_no_fatal_empty_signal :
    runMain ["junk"] ((1 : ℚ) / 10) 5 = RunOutcome.failure PErr.zeroDiv ∧
      RunOutcome.failure PErr.zeroDiv ≠ RunOutcome.failure PErr.fatalEmpty := by
  exact ⟨by decide, by decide⟩

/-- C3 (amended): for every run whose aggregation produces no endpoints
the pipeline aborts — via the unguarded ratio division's
`ZeroDivisionError`, an error distinct from the Fatal-format high-ratio
error — and never completes with a zero-record report; the dedicated
empty-aggregation branch of `main` (which logs and exits cleanly) is
not reached on such runs. -/
theorem no_endpoints_aborts (lines : List String) (th : ℚ) (n : ℕ)
    (h : (parseFold lines).1 = []) :
    runMain lines th n = RunOutcome.failure PErr.zeroDiv ∧
      (∀ q, PErr.zeroDiv ≠ PErr.highFailRate q) ∧
      (∀ recs, runMain lines th n ≠ RunOutcome.success recs) := by
  have hz : (parseFold lines).2.1 = 0 := parseFold_ok_zero lines h
  have hp : parseLogRecords lines th = Except.error PErr.zeroDiv := by
    unfold parseLogRecords pyDiv
    rw [hz]
    norm_num
  refine ⟨?_, ?_, ?_⟩
  · unfold runMain
    rw [hp]
  · intro q hq
    cases hq
  · intro recs hc
    unfold runMain at hc
    rw [hp] at hc
    cases hc

/-- Witness for C3 (amended): a stream with a single unparseable line
aggregates no endpoints and the run aborts with `ZeroDivisionError`. -/
theorem no_endpoints_aborts_witness :
    (parseFold ["junk"]).1 = [] ∧
      runMain ["junk"] ((1 : ℚ) / 10) 7 = RunOutcome.failure PErr.zeroDiv :=
  ⟨by decide, (no_endpoints_aborts ["junk"] ((1 : ℚ) / 10) 7 (by decide)).1⟩

/-- C4: for every endpoint of a successfully built report, the record
has `count` equal to the latency list's length, `time_sum` the sum of
the latencies rounded to three decimals, `time_avg` the unrounded sum
divided by the count and then rounded, `time_max` the exact unrounded
maximum (a member of the list bounding every member), and `time_med`
the median rounded to three decimals, the even-length median being the
mean of the two middle values after sorting. -/
theorem per_endpoint_statistics (stats : List (String × List ℚ))
    (recs : List Rec) (h : buildReportObject stats = Except.ok recs) :
    List.Forall₂ (fun e r =>
      r.count = e.2.length ∧
      r.time_sum = round3 (qSum e.2) ∧
      r.time_avg = round3 (qSum e.2 / (e.2.length : ℚ)) ∧
      (r.time_max ∈ e.2 ∧ ∀ x ∈ e.2, x ≤ r.time_max) ∧
      r.time_med = round3
        (if e.2.length % 2 = 1 then (sortAscQ e.2).getD (e.2.length / 2) 0
         else ((sortAscQ e.2).getD (e.2.length / 2 - 1) 0 +
           (sortAscQ e.2).getD (e.2.length / 2) 0) / 2)) stats recs := by
  have hf := mapE_ok_forall _ stats recs h
  refine List.Forall₂.imp ?_ hf
  intro e r he
  obtain ⟨-, -, hne, -, hcnt, -, hts, -, hta, hmax, mv, hmed, hmedv⟩ :=
    buildRec_ok _ _ e r he
  have hn0 : e.2.length ≠ 0 := fun hz => hne (List.length_eq_zero.mp hz)
  refine ⟨hcnt, hts, hta, hmax, ?_⟩
  unfold pyMedian at hmed
  rw [if_neg hn0] at hmed
  by_cases hpar : e.2.length % 2 = 1
  · rw [if_pos hpar] at hmed
    injection hmed with hmv
    rw [hmedv, ← hmv, if_pos hpar]
  · rw [if_neg hpar] at hmed
    injection hmed with hmv
    rw [hmedv, ← hmv, if_neg hpar]

/-- Witness for C4: the repository's own test vector, one endpoint with
latencies `[0.39, 0.133, 0.199, 0.704]`. -/
theorem per_endpoint_statistics_witness :
    buildReportObject [("test.com", [0.39, 0.133, 0.199, 0.704])] =
      Except.ok [⟨"test.com", 4, 100, 1.426, 100, 0.356, 0.704, 0.294⟩] ∧
      List.Forall₂ (fun (e : String × List ℚ) (r : Rec) => r.count = e.2.length)
        [("test.com", [0.39, 0.133, 0.199, 0.704])]
        [⟨"test.com", 4, 100, 1.426, 100, 0.356, 0.704, 0.294⟩] := by
  constructor
  · with_unfolding_all rfl
  · exact List.Forall₂.imp (fun a b hab => hab.1)
      (per_endpoint_statistics _ _ (by with_unfolding_all rfl))

/-- C5: for a successfully built report each record's `count_perc` is
`count / total_count * 100` rounded to three decimals and `time_perc`
is the unrounded endpoint sum divided by the unrounded grand total
time, times 100, rounded to three decimals; both totals
(`countTotal`, `timeTotal`) range over all endpoints of the run and are
computed before any per-endpoint share. -/
theorem share_computation (stats : List (String × List ℚ))
    (recs : List Rec) (h : buildReportObject stats = Except.ok recs) :
    List.Forall₂ (fun e r =>
      r.count_perc = round3 ((e.2.length : ℚ) / countTotal stats * 100) ∧
      r.time_perc = round3 (qSum e.2 / timeTotal stats * 100)) stats recs := by
  have hf := mapE_ok_forall _ stats recs h
  refine List.Forall₂.imp ?_ hf
  intro e r he
  obtain ⟨-, -, -, -, -, hcp, -, htp, -⟩ := buildRec_ok _ _ e r he
  exact ⟨hcp, htp⟩

/-- Witness for C5: two endpoints sharing the run's totals. -/
theorem share_computation_witness :
    buildReportObject [("a", [0.5]), ("b", [1.5])] =
      Except.ok [⟨"a", 1, 50, 0.5, 25, 0.5, 0.5, 0.5⟩,
        ⟨"b", 1, 50, 1.5, 75, 1.5, 1.5, 1.5⟩] ∧
      List.Forall₂ (fun (e : String × List ℚ) (r : Rec) =>
          r.count_perc = round3 ((e.2.length : ℚ) /
            countTotal [("a", [0.5]), ("b", [1.5])] * 100))
        [("a", [0.5]), ("b", [1.5])]
        [⟨"a", 1, 50, 0.5, 25, 0.5, 0.5, 0.5⟩,
          ⟨"b", 1, 50, 1.5, 75, 1.5, 1.5, 1.5⟩] := by
  constructor
  · with_unfolding_all rfl
  · exact List.Forall₂.imp (fun a b hab => hab.1)
      (share_computation _ _ (by with_unfolding_all rfl))

set_option maxHeartbeats 2000000 in
/-- C9: a non-empty mapping whose only latencies are `0.0` — which the
line pattern admits through a trailing duration `0.00` — makes
`build_report_object` raise `ZeroDivisionError` while computing
`time_perc`: the grand total time is zero although the mapping is
non-empty (`count_total = 1`), so the empty-mapping short-circuit of
`main` does not cover this case and the whole pipeline fails on such a
stream. -/
theorem zero_total_time_perc_crash :
    buildReportObject [("a", [0])] = Except.error PErr.zeroDiv ∧
      countTotal [("a", [0])] = 1 ∧
      timeTotal [("a", [0])] = 0 ∧
      lineMatch "GET /x HTTP/1.1\" 200 0.00" = some ("/x", 0) ∧
      runMain ["GET /x HTTP/1.1\" 200 0.00"] ((1 : ℚ) / 10) 5 =
        RunOutcome.failure PErr.zeroDiv := by
  refine ⟨?_, ?_, ?_, ?_, ?_⟩ <;> with_unfolding_all rfl

set_option maxHeartbeats 2000000 in
/-- C10: the request pattern is matched as a substring anchored only at
the end of the line (`re.search`): a line with an arbitrary prefix
before the method token still extracts the embedded pair, while the
same conforming body followed by trailing text does not match. -/
theorem substring_search_prefix :
    lineMatch "xyz GET /x HTTP/1.1\" 200 0.5" = some ("/x", 1 / 2) ∧
      methodRest ("xyz GET /x HTTP/1.1\" 200 0.5").data = none ∧
      lineMatch "GET /x HTTP/1.1\" 200 0.5 trailing" = none := by
  refine ⟨?_, ?_, ?_⟩ <;> with_unfolding_all rfl

set_option maxHeartbeats 2000000 in
/-- Counterexample for C7: the code's url group is `.+`, which admits
whitespace, so the line `GET /a b HTTP/1.1" c 0.5` is successfully
extracted (with path `/a b`) even though it does not conform to the
claimed pattern whose path is a non-whitespace-containing run. -/
theorem path_whitespace_counterexample :
    (lineMatch "GET /a b HTTP/1.1\" c 0.5").isSome = true ∧
      ¬ Conforms specUrlChar ("GET /a b HTTP/1.1\" c 0.5").data := by
  constructor
  · with_unfolding_all rfl
  · intro hc
    have h1 := (searchFrom_isSome specUrlChar
      ("GET /a b HTTP/1.1\" c 0.5").data).mpr hc
    have h2 : searchFrom specUrlChar ("GET /a b HTTP/1.1\" c 0.5").data =
        none := by
      with_unfolding_all rfl
    rw [h2] at h1
    simp at h1

/-- C7 (amended): a log line is successfully extracted exactly when it
conforms to the request pattern with an HTTP method in
`{POST, GET, HEAD, PUT, OPTIONS}`, whitespace, a url group of one or
more arbitrary non-newline characters (possibly containing whitespace),
whitespace, the `HTTP/x.y"` marker, and trailing fields ending in a
decimal latency at end-of-line; every non-conforming line yields the
non-fatal "no match" outcome. -/
theorem extraction_characterization (s : String) :
    (lineMatch s).isSome = true ↔ Conforms isDotC s.data :=
  lineMatch_isSome s

/-- C6: `filter_report` sorts the records by `time_sum` in descending
order with a stable deterministic tie-break (records of any fixed
`time_sum` keep their original relative order), truncates to the first
`N` records, and returns all of them (a permutation of the input) when
fewer than `N` exist; the input list itself is not mutated (the
embedding is a pure function of it). -/
theorem top_n_selection (l : List Rec) (n : ℕ) :
    List.Pairwise (fun a b => b.time_sum ≤ a.time_sum) (filterReport l n) ∧
      (filterReport l n).length = min n l.length ∧
      (∀ q : ℚ, (sortDescRec l).filter (fun r => decide (r.time_sum = q)) =
        l.filter (fun r => decide (r.time_sum = q))) ∧
      (l.length ≤ n → filterReport l n = sortDescRec l ∧
        List.Perm (filterReport l n) l) := by
  refine ⟨?_, ?_, fun q => filter_sortDescRec q l, ?_⟩
  · have hs : List.Sorted timeGe (sortDescRec l) :=
      List.sorted_insertionSort timeGe l
    have ht : List.Sublist (filterReport l n) (sortDescRec l) :=
      List.take_sublist n _
    exact List.Pairwise.sublist ht hs
  · unfold filterReport sortDescRec
    rw [List.length_take, List.length_insertionSort]
  · intro hln
    have hlen2 : (sortDescRec l).length ≤ n := by
      unfold sortDescRec
      rw [List.length_insertionSort]
      exact hln
    have heq : filterReport l n = sortDescRec l :=
      List.take_of_length_le hlen2
    refine ⟨heq, ?_⟩
    rw [heq]
    exact List.perm_insertionSort timeGe l

/-- Witness for C6: two records, a report size larger than the list. -/
theorem top_n_selection_witness :
    List.Perm
      (filterReport [⟨"a", 1, 50, 0.5, 25, 0.5, 0.5, 0.5⟩,
        ⟨"b", 1, 50, 1.5, 75, 1.5, 1.5, 1.5⟩] 3)
      [⟨"a", 1, 50, 0.5, 25, 0.5, 0.5, 0.5⟩,
        ⟨"b", 1, 50, 1.5, 75, 1.5, 1.5, 1.5⟩] ∧
      (filterReport [⟨"a", 1, 50, 0.5, 25, 0.5, 0.5, 0.5⟩,
        ⟨"b", 1, 50, 1.5, 75, 1.5, 1.5, 1.5⟩] 3).length = min 3 2 :=
  ⟨((top_n_selection _ 3).2.2.2 (by norm_num)).2, (top_n_selection _ 3).2.1⟩

set_option maxHeartbeats 2000000 in
/-- C8: for every run producing at least one summary record, the
`count_perc` values summed over the produced records differ from 100 by
at most `0.001` times the number of records, and likewise for the
`time_perc` values. -/
theorem share_sums_to_100 (stats : List (String × List ℚ)) (recs : List Rec)
    (h : buildReportObject stats = Except.ok recs) (hne : recs ≠ []) :
    |(recs.map Rec.count_perc).sum - 100| ≤ (recs.length : ℚ) / 1000 ∧
      |(recs.map Rec.time_perc).sum - 100| ≤ (recs.length : ℚ) / 1000 := by
  have hf := mapE_ok_forall _ stats recs h
  have hlen : stats.length = recs.length := List.Forall₂.length_eq hf
  have hCT : countTotal stats ≠ 0 ∧ timeTotal stats ≠ 0 := by
    cases stats with
    | nil =>
      cases hf
      exact absurd rfl hne
    | cons e es =>
      cases hf with
      | cons hr htail =>
        have hb := buildRec_ok _ _ _ _ hr
        exact ⟨hb.1, hb.2.1⟩
  have hmap0 : recs.map Rec.count_perc =
      stats.map (fun e => round3 ((e.2.length : ℚ) / countTotal stats * 100)) :=
    forall₂_map_eq _ Rec.count_perc _ stats recs hf
      (fun a b hab => (buildRec_ok _ _ a b hab).2.2.2.2.2.1)
  have hmap1 : recs.map Rec.time_perc =
      stats.map (fun e => round3 (qSum e.2 / timeTotal stats * 100)) :=
    forall₂_map_eq _ Rec.time_perc _ stats recs hf
      (fun a b hab => (buildRec_ok _ _ a b hab).2.2.2.2.2.2.2.1)
  constructor
  · have hmapc : recs.map Rec.count_perc =
        (stats.map (fun e => (e.2.length : ℚ) / countTotal stats * 100)).map
          round3 := by
      rw [hmap0, List.map_map]
      rfl
    have hsumc : (stats.map
        (fun e => (e.2.length : ℚ) / countTotal stats * 100)).sum = 100 := by
      have hcongr : stats.map
          (fun e => (e.2.length : ℚ) / countTotal stats * 100) =
          stats.map (fun e => (e.2.length : ℚ) * (100 / countTotal stats)) := by
        apply List.map_congr_left
        intro e _
        ring
      rw [hcongr, List.sum_map_mul_right]
      have h2 : (stats.map (fun e => (e.2.length : ℚ))).sum =
          countTotal stats := by
        unfold countTotal
        rw [Nat.cast_list_sum, List.map_map]
        rfl
      rw [h2, mul_comm, div_mul_cancel₀ _ hCT.1]
    calc |(recs.map Rec.count_perc).sum - 100|
        = |((stats.map (fun e => (e.2.length : ℚ) / countTotal stats * 100)).map
            round3).sum -
          (stats.map (fun e => (e.2.length : ℚ) / countTotal stats * 100)).sum| := by
          rw [hmapc, hsumc]
      _ ≤ ((stats.map
            (fun e => (e.2.length : ℚ) / countTotal stats * 100)).length : ℚ) /
          1000 := sum_map_round3_err _
      _ = (recs.length : ℚ) / 1000 := by
          rw [List.length_map, hlen]
  · have hmapt : recs.map Rec.time_perc =
        (stats.map (fun e => qSum e.2 / timeTotal stats * 100)).map round3 := by
      rw [hmap1, List.map_map]
      rfl
    have hsumt : (stats.map
        (fun e => qSum e.2 / timeTotal stats * 100)).sum = 100 := by
      have hcongr : stats.map (fun e => qSum e.2 / timeTotal stats * 100) =
          stats.map (fun e => qSum e.2 * (100 / timeTotal stats)) := by
        apply List.map_congr_left
        intro e _
        ring
      rw [hcongr, List.sum_map_mul_right]
      have h2 : (stats.map (fun e => qSum e.2)).sum = timeTotal stats := rfl
      rw [h2, mul_comm, div_mul_cancel₀ _ hCT.2]
    calc |(recs.map Rec.time_perc).sum - 100|
        = |((stats.map (fun e => qSum e.2 / timeTotal stats * 100)).map
            round3).sum -
          (stats.map (fun e => qSum e.2 / timeTotal stats * 100)).sum| := by
          rw [hmapt, hsumt]
      _ ≤ ((stats.map
            (fun e => qSum e.2 / timeTotal stats * 100)).length : ℚ) / 1000 :=
          sum_map_round3_err _
      _ = (recs.length : ℚ) / 1000 := by
          rw [List.length_map, hlen]

/-- Witness for C8: a two-endpoint run whose shares sum to 100. -/
theorem share_sums_to_100_witness :
    ([⟨"a", 1, 50, 0.5, 25, 0.5, 0.5, 0.5⟩,
        ⟨"b", 1, 50, 1.5, 75, 1.5, 1.5, 1.5⟩] : List Rec) ≠ [] ∧
      |(([⟨"a", 1, 50, 0.5, 25, 0.5, 0.5, 0.5⟩,
          ⟨"b", 1, 50, 1.5, 75, 1.5, 1.5, 1.5⟩] : List Rec).map
        Rec.count_perc).sum - 100| ≤
        ((([⟨"a", 1, 50, 0.5, 25, 0.5, 0.5, 0.5⟩,
          ⟨"b", 1, 50, 1.5, 75, 1.5, 1.5, 1.5⟩] : List Rec).length : ℚ)) /
          1000 := by
  constructor
  · simp
  · exact (share_sums_to_100 [("a", [0.5]), ("b", [1.5])] _
      (by with_unfolding_all rfl) (by simp)).1

end LogAnalyzer
